import Mathlib

/-!
Verification of the snapshot-ingestion core of the data-analysis repository
(file data-analysis/top.py): the record parser (Process.from_line), the
series aggregator (Top, DB) and the ingestion loop (process_top).

Embedding conventions:
* Python `int` is `Int`, Python `str` is `String`.
* `decimal.Decimal` values are modelled as exact rationals (`Rat`); this is
  faithful because Decimal arithmetic on parsed literals is exact.
* `float(seconds)` followed by `%` and `*` is modelled as exact rational
  arithmetic on the decimal literal.  This idealisation only makes the code
  look more precise than it is, so it may be relied on only for results that
  are independent of binary floating-point rounding: counterexamples, which
  hold a fortiori for the real program, and concrete tokens whose
  intermediate values are exactly representable as IEEE doubles.  No theorem
  below asserts exact time read-back for a general token: double rounding can
  lose a microsecond even when the fraction is a whole number of
  microseconds (the seconds token "00.500002" stores microsecond 500001 in
  CPython).
* `datetime.time` is `PyTime` with the constructor range checks of CPython
  (a failed check raises ValueError, modelled as the `timeOutOfRange` error).
* exceptions are modelled with `Except Err`; constructors record the cause:
  `malformedField` (ValueError from int/float/Decimal/unpacking),
  `unknownStatus` (KeyError from the ProcessStatus enum lookup),
  `fieldCountMismatch` (TypeError from calling from_line with an argument
  count other than twelve), `timeOutOfRange` (ValueError from datetime.time),
  `topMissing` / `topExists` (SystemError raised by DB.append / DB.set).
-/

deriving instance DecidableEq for Except

namespace TopPy

attribute [local semireducible] Rat.add Rat.mul Rat.sub Rat.inv Rat.ofScientific

/-- The seven status codes of the ProcessStatus enum in top.py. -/
inductive ProcessStatus where
  | D
  | I
  | R
  | S
  | T
  | t
  | Z
deriving DecidableEq

/-- The descriptive payload of each ProcessStatus enum member. -/
def ProcessStatus.description : ProcessStatus → String
  | .D => "uninterruptible sleep"
  | .I => "idle"
  | .R => "running"
  | .S => "sleeping"
  | .T => "stopped by job control signal"
  | .t => "stopped by debugger during trace"
  | .Z => "zombie"

/-- Python ProcessStatus[s]: name lookup in the enum; KeyError when absent. -/
def statusOfName (s : String) : Option ProcessStatus :=
  if s = "D" then some .D
  else if s = "I" then some .I
  else if s = "R" then some .R
  else if s = "S" then some .S
  else if s = "T" then some .T
  else if s = "t" then some .t
  else if s = "Z" then some .Z
  else none

/-- Numeric value of a list of decimal digit characters, most significant first. -/
def natOfDigits (ds : List Char) : Nat :=
  ds.foldl (fun n c => n * 10 + (c.toNat - 48)) 0

/-- All-digits check plus value: the body of a Python integer literal. -/
def digitsVal (ds : List Char) : Option Nat :=
  if ds ≠ [] ∧ ds.all Char.isDigit then some (natOfDigits ds) else none

/-- Python int(s) on a plain token: optional sign followed by digits.
(The exotic forms Python also accepts, such as underscores or surrounding
whitespace, never occur in whitespace-split tokens and are not modelled.) -/
def parseInt (s : String) : Option Int :=
  match s.data with
  | '-' :: ds => (digitsVal ds).map (fun n => -(n : Int))
  | '+' :: ds => (digitsVal ds).map (fun n => (n : Int))
  | ds => (digitsVal ds).map (fun n => (n : Int))

/-- Split a character list at every occurrence of sep, keeping empty pieces,
like Python str.split(sep). -/
def splitChar (sep : Char) : List Char → List (List Char)
  | [] => [[]]
  | c :: rest =>
    match splitChar sep rest with
    | [] => [[]]
    | g :: gs => if c = sep then [] :: g :: gs else (c :: g) :: gs

/-- Unsigned decimal literal body: digits with at most one point, at least one
digit overall.  Value is exact. -/
def parseUnsignedDec (l : List Char) : Option Rat :=
  match splitChar '.' l with
  | [ip] =>
    if ip ≠ [] ∧ ip.all Char.isDigit then some ((natOfDigits ip : Nat) : Rat) else none
  | [ip, fp] =>
    if (ip ++ fp) ≠ [] ∧ (ip ++ fp).all Char.isDigit then
      some (((natOfDigits (ip ++ fp) : Nat) : Rat) / ((10 : Rat) ^ fp.length))
    else none
  | _ => none

/-- Exact value of a decimal numeric token: used to model both
decimal.Decimal(s) and float(s) on such tokens (see the header note on the
float idealisation). -/
def parseDecQ (s : String) : Option Rat :=
  match s.data with
  | '-' :: r => (parseUnsignedDec r).map (fun q => -q)
  | '+' :: r => parseUnsignedDec r
  | r => parseUnsignedDec r

/-- Python s.replace(",", "."): for a one-character pattern this is a
character-wise substitution. -/
def commaToPeriod (s : String) : String :=
  String.mk (s.data.map (fun c => if c = ',' then '.' else c))

/-- The percentage-field computation of from_line:
dec.Decimal(tok.replace(",", ".")). -/
def parsePercentToken (tok : String) : Option Rat :=
  parseDecQ (commaToPeriod tok)

/-- The characters of the substring searched for by line 103 of top.py. -/
def patL : List Char := "python3".data

/-- The characters of the replacement in line 103 of top.py. -/
def repL : List Char := "pd_client".data

/-- Python s.replace("python3", "pd_client") on character lists: scan left to
right, replace every non-overlapping occurrence, skip past each replacement.
Fuel-indexed so that the recursion is structural; fuel is the list length. -/
def replaceAux : Nat → List Char → List Char
  | _, [] => []
  | 0, l => l
  | fuel + 1, c :: rest =>
    if patL.isPrefixOf (c :: rest) then repL ++ replaceAux fuel (rest.drop 6)
    else c :: replaceAux fuel rest

/-- Python command.replace("python3", "pd_client") from line 103 of top.py. -/
def pyReplaceCmd (s : String) : String :=
  String.mk (replaceAux s.data.length s.data)

/-- Substring occurrence test: does p occur contiguously inside the list? -/
def containsSub (p : List Char) : List Char → Bool
  | [] => p.isEmpty
  | c :: rest => p.isPrefixOf (c :: rest) || containsSub p rest

/-- Python int() applied to a number: truncation toward zero. -/
def pyTrunc (q : Rat) : Int :=
  if 0 ≤ q then ⌊q⌋ else ⌈q⌉

/-- Python q % 1: floored remainder with divisor 1. -/
def pyModOne (q : Rat) : Rat := q - (⌊q⌋ : Rat)

/-- The i_microsecond computation of from_line:
int((f_seconds % 1) * MICROSECOND), with MICROSECOND = 1_000_000. -/
def microOfSeconds (q : Rat) : Int :=
  pyTrunc (pyModOne q * 1000000)

/-- Modelled from the spec: the sub-second computation the spec prescribes,
round((seconds mod 1) * 1_000_000).  Used only to compare the spec words with
the source computation microOfSeconds. -/
def specMicro (q : Rat) : Int :=
  round (pyModOne q * 1000000)

/-- datetime.time value: hour, minute, second, microsecond.  from_line always
leaves hour at its default 0. -/
structure PyTime where
  hour : Int
  minute : Int
  second : Int
  microsecond : Int
deriving DecidableEq

/-- Parse / aggregation failure causes; see the header for the Python
exception each constructor stands for. -/
inductive Err where
  | malformedField
  | unknownStatus
  | fieldCountMismatch
  | timeOutOfRange
  | topMissing
  | topExists
deriving DecidableEq

/-- datetime.time(minute=..., second=..., microsecond=...) with CPython range
checks (hour is 0); a failed check raises ValueError. -/
def mkPyTime (minute second micro : Int) : Except Err PyTime :=
  if 0 ≤ minute ∧ minute ≤ 59 ∧ 0 ≤ second ∧ second ≤ 59 ∧
      0 ≤ micro ∧ micro ≤ 999999 then
    .ok ⟨0, minute, second, micro⟩
  else .error .timeOutOfRange

/-- Elapsed seconds read back from a stored time, exactly as the plotting code
of top.py computes it:
((x.hour * 60 + x.minute) * 60 + x.second) + x.microsecond / 10**6. -/
def elapsedOfTime (x : PyTime) : Rat :=
  (((x.hour * 60 + x.minute) * 60 + x.second : Int) : Rat) +
    ((x.microsecond : Int) : Rat) / 1000000

/-- The cpuTime computation of from_line: split on ":" into exactly two
pieces, seconds via float, minutes via int, then
datetime.time(minute, int(seconds), int((seconds % 1) * 1_000_000)). -/
def cpuTimeOfToken (tok : String) : Except Err PyTime :=
  match splitChar ':' tok.data with
  | [mcs, scs] =>
    match parseDecQ (String.mk scs) with
    | none => .error .malformedField
    | some f_seconds =>
      match parseInt (String.mk mcs) with
      | none => .error .malformedField
      | some i_minutes =>
        mkPyTime i_minutes (pyTrunc f_seconds) (microOfSeconds f_seconds)
  | _ => .error .malformedField

/-- Exact mathematical value carried by a cpuTime token:
minutes * 60 + seconds-with-fraction. -/
def timeTokenValue (tok : String) : Option Rat :=
  match splitChar ':' tok.data with
  | [mcs, scs] =>
    match parseDecQ (String.mk scs), parseInt (String.mk mcs) with
    | some q, some m => some ((m : Rat) * 60 + q)
    | _, _ => none
  | _ => none

/-- The Process NamedTuple of top.py. -/
structure Process where
  pid : Int
  user : String
  pr : Int
  ni : Int
  virt : Int
  res : Int
  shr : Int
  s : ProcessStatus
  cpu : Rat
  mem : Rat
  time : PyTime
  command : String
deriving DecidableEq

/-- Process.from_line of top.py: parse the twelve string fields in source
order.  Each failing conversion surfaces the corresponding exception. -/
def Process.from_line (pid user pr ni virt res shr s cpu mem time command : String) :
    Except Err Process :=
  match parseInt pid, parseInt pr, parseInt ni,
      parseInt virt, parseInt res, parseInt shr with
  | some i_pid, some i_pr, some i_ni, some i_virt, some i_res, some i_shr =>
    match statusOfName s with
    | none => .error .unknownStatus
    | some ps_s =>
      match parsePercentToken cpu, parsePercentToken mem with
      | some d_cpu, some d_mem =>
        match cpuTimeOfToken time with
        | .error e => .error e
        | .ok t_time =>
          .ok ⟨i_pid, user, i_pr, i_ni, i_virt, i_res, i_shr, ps_s,
            d_cpu, d_mem, t_time, pyReplaceCmd command⟩
      | _, _ => .error .malformedField
  | _, _, _, _, _, _ => .error .malformedField

/-- Process.from_line(*tokens): the splat call demands exactly twelve
positional arguments; any other count raises TypeError. -/
def fromTokens (ts : List String) : Except Err Process :=
  match ts with
  | [pid, user, pr, ni, virt, res, shr, s, cpu, mem, time, command] =>
    Process.from_line pid user pr ni virt res shr s cpu mem time command
  | _ => .error .fieldCountMismatch

/-- Helper for pySplitWs: accumulate the current word (reversed). -/
def wordsAux (cur : List Char) : List Char → List String
  | [] => if cur.isEmpty then [] else [String.mk cur.reverse]
  | c :: rest =>
    if c.isWhitespace then
      if cur.isEmpty then wordsAux [] rest
      else String.mk cur.reverse :: wordsAux [] rest
    else wordsAux (c :: cur) rest

/-- Python line.split() with no argument: split on whitespace runs, dropping
empty pieces. -/
def pySplitWs (s : String) : List String := wordsAux [] s.data

/-- One raw line: tokenize then parse, as in process_top. -/
def parseLine (line : String) : Except Err Process :=
  fromTokens (pySplitWs line)

/-- The Top NamedTuple of top.py: per-pid identity plus the nine parallel
metric sequences. -/
structure Top where
  pid : Int
  user : String
  command : String
  pr_list : List Int
  ni_list : List Int
  virt_list : List Int
  res_list : List Int
  shr_list : List Int
  s_list : List ProcessStatus
  cpu_list : List Rat
  mem_list : List Rat
  time_list : List PyTime
deriving DecidableEq

/-- Top.from_process of top.py: seed every metric sequence with the single
value from the given process. -/
def Top.from_process (p : Process) : Top :=
  ⟨p.pid, p.user, p.command,
    [p.pr], [p.ni], [p.virt], [p.res], [p.shr],
    [p.s], [p.cpu], [p.mem], [p.time]⟩

/-- Append one record to every metric sequence of a Top (the list mutations
performed by DB.append once the entry is found). -/
def pushRecord (t : Top) (p : Process) : Top :=
  { t with
    pr_list := t.pr_list ++ [p.pr]
    ni_list := t.ni_list ++ [p.ni]
    virt_list := t.virt_list ++ [p.virt]
    res_list := t.res_list ++ [p.res]
    shr_list := t.shr_list ++ [p.shr]
    s_list := t.s_list ++ [p.s]
    cpu_list := t.cpu_list ++ [p.cpu]
    mem_list := t.mem_list ++ [p.mem]
    time_list := t.time_list ++ [p.time] }

/-- The DB class of top.py: an insertion-ordered dictionary from pid to Top,
modelled as an association list with unique keys. -/
structure DB where
  database : List (Int × Top)
deriving DecidableEq

/-- The empty database built by DB.__init__. -/
def DB.empty : DB := ⟨[]⟩

/-- DB.get: dictionary lookup returning None when absent. -/
def DB.get (db : DB) (item : Int) : Option Top :=
  match db.database.find? (fun e => e.1 == item) with
  | some e => some e.2
  | none => none

/-- DB.set: raise SystemError when the pid is already present, otherwise
insert at the end (dictionary insertion order). -/
def DB.set (db : DB) (top : Top) : Except Err DB :=
  match db.get top.pid with
  | some _ => .error .topExists
  | none => .ok ⟨db.database ++ [(top.pid, top)]⟩

/-- DB.append: raise SystemError when the pid is absent, otherwise append the
record to every metric sequence of the stored Top. -/
def DB.append (db : DB) (p : Process) : Except Err DB :=
  match db.get p.pid with
  | none => .error .topMissing
  | some _ =>
    .ok ⟨db.database.map (fun e => if e.1 == p.pid then (e.1, pushRecord e.2 p) else e)⟩

/-- DB.pidof: pid to captured command label, in store order. -/
def DB.pidof (db : DB) : List (Int × String) :=
  db.database.map (fun e => (e.1, e.2.command))

/-- The loop body of process_top for one already-parsed record: create the
Top when the pid is new, then (unconditionally) append the record. -/
def stepProcess (db : DB) (p : Process) : Except Err DB :=
  match db.get p.pid with
  | none =>
    match db.set (Top.from_process p) with
    | .error e => .error e
    | .ok db1 => db1.append p
  | some _ => db.append p

/-- Feed a list of already-parsed records to the aggregator in order. -/
def processRecords : DB → List Process → Except Err DB
  | db, [] => .ok db
  | db, p :: rest =>
    match stepProcess db p with
    | .error e => .error e
    | .ok db1 => processRecords db1 rest

/-- The line loop of process_top: parse each line, then aggregate. -/
def processLines : DB → List String → Except Err DB
  | db, [] => .ok db
  | db, line :: rest =>
    match parseLine line with
    | .error e => .error e
    | .ok p =>
      match stepProcess db p with
      | .error e => .error e
      | .ok db1 => processLines db1 rest

/-- process_top of top.py, abstracted over the file contents: ingest all
lines into a fresh store. -/
def process_top (lines : List String) : Except Err DB :=
  processLines DB.empty lines

/-- Number of records in the list carrying the given pid. -/
def recordCount (ps : List Process) (pid : Int) : Nat :=
  (ps.filter (fun p => p.pid == pid)).length

/-- The first record in the list carrying the given pid, if any. -/
def firstRecord (ps : List Process) (pid : Int) : Option Process :=
  ps.find? (fun p => p.pid == pid)

/-- All nine metric sequences of a Top have the given length. -/
def ninesLen (t : Top) (n : Nat) : Prop :=
  t.pr_list.length = n ∧ t.ni_list.length = n ∧ t.virt_list.length = n ∧
  t.res_list.length = n ∧ t.shr_list.length = n ∧ t.s_list.length = n ∧
  t.cpu_list.length = n ∧ t.mem_list.length = n ∧ t.time_list.length = n

/-- Store invariant indexed by a per-pid record count: every stored Top has
all nine sequences of length count + 1 (the creation seed contributes the
extra element), and absent pids have count 0. -/
def storeInv (db : DB) (cnt : Int → Nat) : Prop :=
  (∀ pid t, db.get pid = some t → ninesLen t (cnt pid + 1)) ∧
  (∀ pid, db.get pid = none → cnt pid = 0)

/-- A sample record with pid 100, as parsed from the line
"100 alice 20 0 1000 500 100 R 12.3 1.0 0:01.00 bash". -/
def r0 : Process :=
  ⟨100, "alice", 20, 0, 1000, 500, 100, .R, 123 / 10, 1, ⟨0, 0, 1, 0⟩, "bash"⟩

/-- The store entry produced by feeding r0 once to a fresh store: seeded at
creation and then appended again by the unconditional append. -/
def r0top : Top := pushRecord (Top.from_process r0) r0

/-- The store after feeding r0 once to a fresh store. -/
def r0db : DB := ⟨[(100, r0top)]⟩

/-- A later record with the same pid 100 but a different user and command. -/
def r1 : Process :=
  ⟨100, "bob", 21, 1, 1001, 501, 101, .S, 1, 2, ⟨0, 0, 2, 0⟩, "other"⟩

/-- The single store entry after feeding r0 then r1 to a fresh store. -/
def c9top : Top := pushRecord (pushRecord (Top.from_process r0) r0) r1

/-- The store after feeding r0 then r1 to a fresh store. -/
def c9db : DB := ⟨[(100, c9top)]⟩

/-- The record parsed from a line whose command token is "python3". -/
def pyProc : Process :=
  ⟨100, "alice", 20, 0, 1000, 500, 100, .R, 123 / 10, 1, ⟨0, 0, 1, 0⟩, "pd_client"⟩

/-- The record parsed from the witness line with cpuTime "1:02.50". -/
def c5proc : Process :=
  ⟨3301, "user", 20, 0, 10, 5, 1, .R, 3 / 2, 5 / 2, ⟨0, 1, 2, 500000⟩, "cmd"⟩

/-- Five raw lines: three for pid 100 (status R, R, S) and two for pid 200
(status S, R), interleaved in arrival order 100, 200, 100, 200, 100. -/
def c2Lines : List String :=
  [" 100 alice 20 0 1000 500 100 R 12.3 1.0 0:01.00 bash",
   " 200 bob 20 0 2000 600 200 S 1,5 2.0 0:02.00 python3",
   " 100 alice 20 0 1001 501 100 R 12.4 1.1 0:01.10 bash",
   " 200 bob 20 0 2001 601 200 R 1,6 2.1 0:02.10 python3",
   " 100 alice 20 0 1002 502 100 S 12.5 1.2 0:01.20 bash"]

/-! Helper lemmas about substring search and the command substitution. -/

/-- Boolean prefix test as an existential. -/
theorem isPrefixOf_iff_exists (p : List Char) :
    ∀ l : List Char, p.isPrefixOf l = true ↔ ∃ u, l = p ++ u := by
  induction p with
  | nil =>
    intro l
    simp [List.isPrefixOf]
  | cons a as ih =>
    intro l
    cases l with
    | nil =>
      simp [List.isPrefixOf]
    | cons b bs =>
      simp only [List.isPrefixOf, Bool.and_eq_true, beq_iff_eq, ih bs, List.cons_append]
      constructor
      · rintro ⟨rfl, u, rfl⟩
        exact ⟨u, rfl⟩
      · rintro ⟨u, hu⟩
        injection hu with h1 h2
        exact ⟨h1.symm, u, h2⟩

/-- Substring search as an existential decomposition. -/
theorem containsSub_iff (p : List Char) :
    ∀ s : List Char, containsSub p s = true ↔ ∃ x y, s = x ++ p ++ y := by
  intro s
  induction s with
  | nil =>
    constructor
    · intro h
      simp [containsSub, List.isEmpty_iff] at h
      exact ⟨[], [], by simp [h]⟩
    · rintro ⟨x, y, hxy⟩
      have h1 : x ++ p = [] ∧ y = [] := List.append_eq_nil.mp hxy.symm
      have h2 : x = [] ∧ p = [] := List.append_eq_nil.mp h1.1
      simp [containsSub, h2.2]
  | cons c rest ih =>
    simp only [containsSub, Bool.or_eq_true, isPrefixOf_iff_exists, ih]
    constructor
    · rintro (⟨u, hu⟩ | ⟨x, y, hxy⟩)
      · exact ⟨[], u, by simp [hu]⟩
      · exact ⟨c :: x, y, by simp [hxy]⟩
    · rintro ⟨x, y, hxy⟩
      cases x with
      | nil =>
        exact Or.inl ⟨y, by simpa using hxy⟩
      | cons xc xs =>
        right
        have h2 : c = xc ∧ rest = xs ++ (p ++ y) := by simpa using hxy
        exact ⟨xs, y, by simp [h2.2]⟩

/-- The tail of the pattern after its leading letter. -/
def ytailL : List Char := "ython3".data

theorem patL_eq : patL = 'p' :: ytailL := by decide

theorem ytailL_no_p : ∀ c ∈ ytailL, c ≠ 'p' := by decide

/-- Replacing never exhausts the fuel when it starts at the list length. -/
theorem replaceAux_prefix_transfer :
    ∀ fuel : Nat, ∀ s q : List Char, s.length ≤ fuel →
      (∀ c ∈ q, c ≠ 'p') →
      (∃ u, replaceAux fuel s = q ++ u) → ∃ u, s = q ++ u := by
  intro fuel
  induction fuel with
  | zero =>
    intro s q hlen _ h
    have hs : s = [] := List.length_eq_zero.mp (Nat.le_zero.mp hlen)
    subst hs
    simpa [replaceAux] using h
  | succ fuel ih =>
    intro s q hlen hq h
    cases s with
    | nil =>
      simpa [replaceAux] using h
    | cons c rest =>
      by_cases hpre : patL.isPrefixOf (c :: rest) = true
      · rw [replaceAux, if_pos hpre] at h
        cases q with
        | nil => exact ⟨c :: rest, rfl⟩
        | cons qc qs =>
          obtain ⟨u, hu⟩ := h
          have : qc = 'p' := by
            have := congrArg (fun l => l.head?) hu
            simpa [repL] using this.symm
          exact absurd this (hq qc (by simp))
      · rw [replaceAux, if_neg hpre] at h
        cases q with
        | nil => exact ⟨c :: rest, rfl⟩
        | cons qc qs =>
          obtain ⟨u, hu⟩ := h
          injection hu with h1 h2
          obtain ⟨u', hu'⟩ := ih rest qs (Nat.le_of_succ_le_succ hlen)
            (fun x hx => hq x (by simp [hx])) ⟨u, h2⟩
          exact ⟨u', by simp [h1, hu']⟩

/-- Scanning past the emitted replacement: no occurrence of the pattern can
start inside "pd_client", whatever follows it. -/
theorem containsSub_repL_append (b : List Char) :
    containsSub patL (repL ++ b) = containsSub patL b := rfl

/-- The output of the replacement scan never contains the pattern. -/
theorem replaceAux_no_pat :
    ∀ fuel : Nat, ∀ s : List Char, s.length ≤ fuel →
      containsSub patL (replaceAux fuel s) = false := by
  intro fuel
  induction fuel with
  | zero =>
    intro s hlen
    have hs : s = [] := List.length_eq_zero.mp (Nat.le_zero.mp hlen)
    subst hs
    decide
  | succ fuel ih =>
    intro s hlen
    cases s with
    | nil =>
      have h0 : replaceAux (fuel + 1) ([] : List Char) = [] := rfl
      rw [h0]
      decide
    | cons c rest =>
      cases hpre : patL.isPrefixOf (c :: rest) with
      | true =>
        rw [replaceAux, if_pos hpre, containsSub_repL_append]
        refine ih (rest.drop 6) ?_
        have := Nat.le_of_succ_le_succ (by simpa using hlen)
        simp only [List.length_drop]
        omega
      | false =>
        rw [replaceAux, if_neg (by simp [hpre])]
        have hrest : rest.length ≤ fuel := Nat.le_of_succ_le_succ (by simpa using hlen)
        simp only [containsSub, Bool.or_eq_false_iff]
        refine ⟨?_, ih rest hrest⟩
        cases hb : patL.isPrefixOf (c :: replaceAux fuel rest) with
        | false => rfl
        | true =>
          exfalso
          obtain ⟨u, hu⟩ := (isPrefixOf_iff_exists patL _).mp hb
          rw [patL_eq] at hu
          injection hu with h1 h2
          obtain ⟨u', hu'⟩ :=
            replaceAux_prefix_transfer fuel rest ytailL hrest ytailL_no_p ⟨u, h2⟩
          have : patL.isPrefixOf (c :: rest) = true := by
            refine (isPrefixOf_iff_exists patL _).mpr ⟨u', ?_⟩
            rw [patL_eq, h1, hu']
            simp
          rw [this] at hpre
          exact Bool.noConfusion hpre

/-- A list not containing the pattern is returned unchanged. -/
theorem replaceAux_id_of_no_pat :
    ∀ fuel : Nat, ∀ s : List Char, s.length ≤ fuel →
      containsSub patL s = false → replaceAux fuel s = s := by
  intro fuel
  induction fuel with
  | zero =>
    intro s hlen _
    have hs : s = [] := List.length_eq_zero.mp (Nat.le_zero.mp hlen)
    subst hs
    rfl
  | succ fuel ih =>
    intro s hlen h
    cases s with
    | nil => rfl
    | cons c rest =>
      simp only [containsSub, Bool.or_eq_false_iff] at h
      rw [replaceAux, if_neg (by simp [h.1])]
      rw [ih rest (Nat.le_of_succ_le_succ (by simpa using hlen)) h.2]

/-- The stored command never contains the raw interpreter name. -/
theorem pyReplaceCmd_no_python3 (s : String) :
    containsSub patL (pyReplaceCmd s).data = false :=
  replaceAux_no_pat s.data.length s.data le_rfl

/-- A command free of the interpreter name is stored unchanged. -/
theorem pyReplaceCmd_id (s : String) :
    containsSub patL s.data = false → pyReplaceCmd s = s := by
  intro h
  unfold pyReplaceCmd
  rw [replaceAux_id_of_no_pat s.data.length s.data le_rfl h]

/-! Helper lemmas about the store. -/

theorem get_nil (item : Int) : (DB.mk []).get item = none := rfl

theorem get_cons (e : Int × Top) (l : List (Int × Top)) (item : Int) :
    (DB.mk (e :: l)).get item =
      if e.1 = item then some e.2 else (DB.mk l).get item := by
  simp only [DB.get, List.find?_cons]
  by_cases h : e.1 = item
  · simp [h]
  · have hb : (e.1 == item) = false := by simp [h]
    simp [hb, h]

theorem get_append_last (l : List (Int × Top)) (k : Int) (v : Top) (item : Int) :
    (DB.mk (l ++ [(k, v)])).get item =
      match (DB.mk l).get item with
      | some t => some t
      | none => if k = item then some v else none := by
  induction l with
  | nil =>
    by_cases h : k = item <;> simp [get_cons, get_nil, h]
  | cons e l ih =>
    simp only [List.cons_append, get_cons, ih]
    by_cases h : e.1 = item <;> simp [h]

theorem get_map_push (l : List (Int × Top)) (p : Process) (item : Int) :
    (DB.mk (l.map (fun e => if e.1 == p.pid then (e.1, pushRecord e.2 p) else e))).get item =
      if item = p.pid then ((DB.mk l).get item).map (fun t => pushRecord t p)
      else (DB.mk l).get item := by
  induction l with
  | nil =>
    by_cases h : item = p.pid <;> simp [get_nil, h]
  | cons e l ih =>
    simp only [List.map_cons]
    have hkey : (if e.1 == p.pid then (e.1, pushRecord e.2 p) else e).1 = e.1 := by
      by_cases hh : e.1 = p.pid <;> simp [hh]
    by_cases he : e.1 = p.pid <;> by_cases hi : e.1 = item
    · have hip : item = p.pid := by omega
      simp [get_cons, he, hi, hip]
    · have hne : ¬((if e.1 == p.pid then (e.1, pushRecord e.2 p) else e).1 = item) := by
        rw [hkey]; exact hi
      rw [get_cons, if_neg hne, ih, get_cons, if_neg hi]
    · have hip : ¬(item = p.pid) := by omega
      simp [get_cons, he, hi, hip]
    · have hne : ¬((if e.1 == p.pid then (e.1, pushRecord e.2 p) else e).1 = item) := by
        rw [hkey]; exact hi
      rw [get_cons, if_neg hne, ih, get_cons, if_neg hi]

/-- The loop body never fails, leaves other pids untouched, and ends with the
record pushed onto the (possibly freshly created) entry for its pid. -/
theorem stepProcess_ok (db : DB) (p : Process) :
    ∃ db2, stepProcess db p = .ok db2 ∧
      (∀ pid, pid ≠ p.pid → db2.get pid = db.get pid) ∧
      db2.get p.pid = some (pushRecord
        (match db.get p.pid with
          | none => Top.from_process p
          | some t => t) p) := by
  cases hget : db.get p.pid with
  | none =>
    have hset : db.set (Top.from_process p) =
        .ok (DB.mk (db.database ++ [(p.pid, Top.from_process p)])) := by
      simp only [DB.set, Top.from_process]
      rw [hget]
    have hget1 : (DB.mk (db.database ++ [(p.pid, Top.from_process p)])).get p.pid =
        some (Top.from_process p) := by
      rw [get_append_last]
      cases db with
      | mk l => rw [hget]; simp
    refine ⟨DB.mk ((db.database ++ [(p.pid, Top.from_process p)]).map
      (fun e => if e.1 == p.pid then (e.1, pushRecord e.2 p) else e)), ?_, ?_, ?_⟩
    · simp only [stepProcess]
      rw [hget, hset]
      simp only [DB.append]
      rw [hget1]
    · intro pid hpid
      rw [get_map_push, if_neg hpid, get_append_last]
      cases db with
      | mk l =>
        cases hl : (DB.mk l).get pid with
        | none =>
          simp only [hl]
          rw [if_neg (by omega : ¬p.pid = pid)]
        | some t => simp [hl]
    · rw [get_map_push, if_pos rfl]
      cases db with
      | mk l => rw [hget1]; rfl
  | some t =>
    refine ⟨DB.mk (db.database.map
      (fun e => if e.1 == p.pid then (e.1, pushRecord e.2 p) else e)), ?_, ?_, ?_⟩
    · simp only [stepProcess]
      rw [hget]
      simp only [DB.append]
      rw [hget]
    · intro pid hpid
      cases db with
      | mk l => rw [get_map_push, if_neg hpid]
    · cases db with
      | mk l => rw [get_map_push, if_pos rfl, hget]; rfl

theorem ninesLen_from_process (p : Process) : ninesLen (Top.from_process p) 1 := by
  simp [ninesLen, Top.from_process]

theorem ninesLen_push (t : Top) (p : Process) (n : Nat) :
    ninesLen t n → ninesLen (pushRecord t p) (n + 1) := by
  intro h
  unfold ninesLen at h ⊢
  simp only [pushRecord, List.length_append, List.length_cons, List.length_nil]
  omega

theorem recordCount_cons (p : Process) (rest : List Process) (pid : Int) :
    recordCount (p :: rest) pid =
      recordCount rest pid + (if p.pid = pid then 1 else 0) := by
  by_cases h : p.pid = pid <;> simp [recordCount, List.filter_cons, h]

theorem firstRecord_cons (p : Process) (rest : List Process) (pid : Int) :
    firstRecord (p :: rest) pid =
      if p.pid = pid then some p else firstRecord rest pid := by
  by_cases h : p.pid = pid <;> simp [firstRecord, List.find?_cons, h]

/-- Running the aggregator on a record list never fails and preserves the
counting invariant. -/
theorem processRecords_inv :
    ∀ (ps : List Process) (db : DB) (cnt : Int → Nat), storeInv db cnt →
      ∃ db2, processRecords db ps = .ok db2 ∧
        storeInv db2 (fun pid => cnt pid + recordCount ps pid) := by
  intro ps
  induction ps with
  | nil =>
    intro db cnt h
    refine ⟨db, rfl, ⟨fun pid t ht => ?_, fun pid ht => ?_⟩⟩
    · simpa [recordCount] using h.1 pid t ht
    · simpa [recordCount] using h.2 pid ht
  | cons p rest ih =>
    intro db cnt h
    obtain ⟨db1, hstep, hother, hpush⟩ := stepProcess_ok db p
    have h1 : storeInv db1 (fun pid => if pid = p.pid then cnt pid + 1 else cnt pid) := by
      constructor
      · intro pid t ht
        by_cases hp : pid = p.pid
        · subst hp
          rw [hpush] at ht
          injection ht with ht
          subst ht
          simp only [if_pos rfl]
          cases hget : db.get p.pid with
          | none =>
            have h0 : cnt p.pid = 0 := h.2 p.pid hget
            rw [h0]
            exact ninesLen_push _ p 1 (ninesLen_from_process p)
          | some t0 =>
            exact ninesLen_push _ p _ (h.1 p.pid t0 hget)
        · rw [hother pid hp] at ht
          simp only [if_neg hp]
          exact h.1 pid t ht
      · intro pid ht
        by_cases hp : pid = p.pid
        · subst hp
          rw [hpush] at ht
          exact Option.noConfusion ht
        · rw [hother pid hp] at ht
          simp only [if_neg hp]
          exact h.2 pid ht
    obtain ⟨db2, hrec, hinv⟩ := ih db1 _ h1
    refine ⟨db2, ?_, ?_⟩
    · simp only [processRecords]
      rw [hstep]
      exact hrec
    · constructor
      · intro pid t ht
        have hlen := hinv.1 pid t ht
        have harg : (if pid = p.pid then cnt pid + 1 else cnt pid) + recordCount rest pid =
            cnt pid + recordCount (p :: rest) pid := by
          rw [recordCount_cons]
          by_cases hp : pid = p.pid
          · rw [if_pos hp, if_pos hp.symm]
            omega
          · rw [if_neg hp, if_neg (fun hh => hp hh.symm)]
            omega
        simpa only [harg] using hlen
      · intro pid ht
        have h0 := hinv.2 pid ht
        have harg : (if pid = p.pid then cnt pid + 1 else cnt pid) + recordCount rest pid =
            cnt pid + recordCount (p :: rest) pid := by
          rw [recordCount_cons]
          by_cases hp : pid = p.pid
          · rw [if_pos hp, if_pos hp.symm]
            omega
          · rw [if_neg hp, if_neg (fun hh => hp hh.symm)]
            omega
        simp only [← harg]
        exact h0

/-- Identity fields of every stored Top come either from what the store held
before the run, or from the first record of the run carrying that pid. -/
theorem processRecords_ident :
    ∀ (ps : List Process) (db db2 : DB), processRecords db ps = .ok db2 →
      ∀ pid t2, db2.get pid = some t2 →
        (∃ t, db.get pid = some t ∧ t2.pid = t.pid ∧ t2.user = t.user ∧
          t2.command = t.command) ∨
        (db.get pid = none ∧ ∃ p, firstRecord ps pid = some p ∧
          t2.pid = p.pid ∧ t2.user = p.user ∧ t2.command = p.command) := by
  intro ps
  induction ps with
  | nil =>
    intro db db2 h pid t2 ht
    injection h with h
    subst h
    exact Or.inl ⟨t2, ht, rfl, rfl, rfl⟩
  | cons p rest ih =>
    intro db db2 h pid t2 ht
    obtain ⟨db1, hstep, hother, hpush⟩ := stepProcess_ok db p
    simp only [processRecords] at h
    rw [hstep] at h
    rcases ih db1 db2 h pid t2 ht with ⟨t, ht1, hid1, hid2, hid3⟩ | ⟨hnone, q, hfind, hq1, hq2, hq3⟩
    · by_cases hp : pid = p.pid
      · subst hp
        rw [hpush] at ht1
        injection ht1 with ht1
        subst ht1
        cases hget : db.get p.pid with
        | none =>
          rw [hget] at hid1 hid2 hid3
          refine Or.inr ⟨rfl, p, ?_, ?_, ?_, ?_⟩
          · rw [firstRecord_cons, if_pos rfl]
          · simpa [pushRecord, Top.from_process] using hid1
          · simpa [pushRecord, Top.from_process] using hid2
          · simpa [pushRecord, Top.from_process] using hid3
        | some t0 =>
          rw [hget] at hid1 hid2 hid3
          refine Or.inl ⟨t0, rfl, ?_, ?_, ?_⟩
          · simpa [pushRecord] using hid1
          · simpa [pushRecord] using hid2
          · simpa [pushRecord] using hid3
      · rw [hother pid hp] at ht1
        exact Or.inl ⟨t, ht1, hid1, hid2, hid3⟩
    · have hp : pid ≠ p.pid := by
        intro hh
        subst hh
        rw [hpush] at hnone
        exact Option.noConfusion hnone
      rw [hother pid hp] at hnone
      refine Or.inr ⟨hnone, q, ?_, hq1, hq2, hq3⟩
      rw [firstRecord_cons, if_neg (fun hh => hp hh.symm)]
      exact hfind

/-! Helper lemmas about the parser. -/

/-- Everything a successful from_line pins down about the produced record. -/
theorem from_line_ok_inv
    (pid user pr ni virt res shr s cpu mem time command : String) (p : Process) :
    Process.from_line pid user pr ni virt res shr s cpu mem time command = .ok p →
      parseInt pid = some p.pid ∧ p.user = user ∧ parseInt pr = some p.pr ∧
      parseInt ni = some p.ni ∧ parseInt virt = some p.virt ∧
      parseInt res = some p.res ∧ parseInt shr = some p.shr ∧
      statusOfName s = some p.s ∧ parsePercentToken cpu = some p.cpu ∧
      parsePercentToken mem = some p.mem ∧ cpuTimeOfToken time = .ok p.time ∧
      p.command = pyReplaceCmd command := by
  intro h
  unfold Process.from_line at h
  split at h
  · split at h
    · exact Except.noConfusion h
    · split at h
      · split at h
        · exact Except.noConfusion h
        · injection h with h
          subst h
          simp_all
      · exact Except.noConfusion h
  · exact Except.noConfusion h

/-- Only a value-shaped failure can come out of the time parser. -/
theorem cpuTimeOfToken_no_fcm (tok : String) :
    cpuTimeOfToken tok ≠ .error .fieldCountMismatch := by
  unfold cpuTimeOfToken
  split
  · split
    · intro h
      injection h with h
      exact Err.noConfusion h
    · split
      · intro h
        injection h with h
        exact Err.noConfusion h
      · unfold mkPyTime
        split
        · exact fun h => Except.noConfusion h
        · intro h
          injection h with h
          exact Err.noConfusion h
  · intro h
    injection h with h
    exact Err.noConfusion h

/-- from_line never reports a field-count mismatch: that error is raised only
by the argument-splat arity check. -/
theorem from_line_no_fcm
    (pid user pr ni virt res shr s cpu mem time command : String) :
    Process.from_line pid user pr ni virt res shr s cpu mem time command ≠
      .error .fieldCountMismatch := by
  unfold Process.from_line
  split
  · split
    · intro h
      injection h with h
      exact Err.noConfusion h
    · split
      · split
        · exact cpuTimeOfToken_no_fcm time ∘ by
            intro h
            injection h with h
            subst h
            assumption
        · exact fun h => Except.noConfusion h
      · intro h
        injection h with h
        exact Err.noConfusion h
  · intro h
    injection h with h
    exact Err.noConfusion h

theorem pyModOne_eq_fract (q : Rat) : pyModOne q = Int.fract q := rfl

/-! Claim theorems. -/

/-- C1: the cpuTime token "75:00.00" does not parse to 4500.0 seconds: the
code builds datetime.time(minute=75, ...), whose range check (minute must be
in 0..59) raises ValueError, so the whole line is unparseable — even though
the token itself denotes 4500 elapsed seconds. -/
theorem c1_minute_range :
    cpuTimeOfToken "75:00.00" = .error .timeOutOfRange ∧
    fromTokens ["3301", "user", "20", "0", "10000", "5000", "1000", "R",
      "5.0", "1.0", "75:00.00", "cmd"] = .error .timeOutOfRange ∧
    timeTokenValue "75:00.00" = some (4500 : Rat) := by
  decide

/-- C2: feeding the five interleaved lines (pid 100: R, R, S; pid 200: S, R)
to a fresh store yields two Series, but the status sequences are
[R, R, R, S] and [S, S, R]: the first record of each pid is stored twice,
once by the creation seed and once by the unconditional append, so it is not
the claimed [R, R, S] / [S, R]. -/
theorem c2_first_record_double :
    (process_top c2Lines).map (fun db => db.database.length) = .ok 2 ∧
    (process_top c2Lines).map (fun db => (db.get 100).map Top.s_list) =
      .ok (some [.R, .R, .R, .S]) ∧
    (process_top c2Lines).map (fun db => (db.get 200).map Top.s_list) =
      .ok (some [.S, .S, .R]) ∧
    ¬((process_top c2Lines).map (fun db => (db.get 100).map Top.s_list) =
      .ok (some [.R, .R, .S])) := by
  decide

/-- C3 counterexample: a line of thirteen whitespace tokens does not parse
with the trailing token folded into the command; the argument splat of
from_line raises TypeError (FieldCountMismatch), refuting the claim that
more than twelve tokens parse successfully. -/
theorem c3_extra_tokens_cex :
    fromTokens ["100", "alice", "20", "0", "1000", "500", "100", "R",
      "12.3", "1.0", "0:01.00", "bash", "-x"] = .error .fieldCountMismatch := rfl

/-- C3 amended: a token list of any length other than exactly twelve fails
with FieldCountMismatch — fewer AND more than twelve both fail; trailing
tokens are never joined into the command — and a twelve-token list never
produces that error. -/
theorem c3_field_count :
    (∀ ts : List String, ts.length ≠ 12 →
      fromTokens ts = .error .fieldCountMismatch) ∧
    (∀ ts : List String, ts.length = 12 →
      fromTokens ts ≠ .error .fieldCountMismatch) := by
  constructor
  · intro ts h
    rcases ts with _ | ⟨t1, ts⟩
    · rfl
    rcases ts with _ | ⟨t2, ts⟩
    · rfl
    rcases ts with _ | ⟨t3, ts⟩
    · rfl
    rcases ts with _ | ⟨t4, ts⟩
    · rfl
    rcases ts with _ | ⟨t5, ts⟩
    · rfl
    rcases ts with _ | ⟨t6, ts⟩
    · rfl
    rcases ts with _ | ⟨t7, ts⟩
    · rfl
    rcases ts with _ | ⟨t8, ts⟩
    · rfl
    rcases ts with _ | ⟨t9, ts⟩
    · rfl
    rcases ts with _ | ⟨t10, ts⟩
    · rfl
    rcases ts with _ | ⟨t11, ts⟩
    · rfl
    rcases ts with _ | ⟨t12, ts⟩
    · rfl
    rcases ts with _ | ⟨t13, ts⟩
    · exact absurd rfl h
    · rfl
  · intro ts h
    rcases ts with _ | ⟨t1, ts⟩
    · simp at h
    rcases ts with _ | ⟨t2, ts⟩
    · simp at h
    rcases ts with _ | ⟨t3, ts⟩
    · simp at h
    rcases ts with _ | ⟨t4, ts⟩
    · simp at h
    rcases ts with _ | ⟨t5, ts⟩
    · simp at h
    rcases ts with _ | ⟨t6, ts⟩
    · simp at h
    rcases ts with _ | ⟨t7, ts⟩
    · simp at h
    rcases ts with _ | ⟨t8, ts⟩
    · simp at h
    rcases ts with _ | ⟨t9, ts⟩
    · simp at h
    rcases ts with _ | ⟨t10, ts⟩
    · simp at h
    rcases ts with _ | ⟨t11, ts⟩
    · simp at h
    rcases ts with _ | ⟨t12, ts⟩
    · simp at h
    rcases ts with _ | ⟨t13, ts⟩
    · exact from_line_no_fcm t1 t2 t3 t4 t5 t6 t7 t8 t9 t10 t11 t12
    · simp only [List.length_cons] at h
      omega

theorem c3_field_count_witness :
    fromTokens ["only", "eleven", "t", "t", "t", "t", "t", "t", "t", "t", "t"] =
      .error .fieldCountMismatch ∧
    fromTokens ["100", "alice", "20", "0", "1000", "500", "100", "R",
      "12.3", "1.0", "0:01.00", "bash"] ≠ .error .fieldCountMismatch :=
  ⟨c3_field_count.1 _ (by decide), c3_field_count.2 _ (by decide)⟩

/-- C4 counterexample: for the token "0:00.0000018" (fractional seconds
9/5000000) the machine microsecond field is int(1.8) = 1 by truncation,
whereas the claimed round((seconds mod 1) * 1_000_000) would give
round(1.8) = 2: the sub-second part is not computed by rounding. -/
theorem c4_round_cex :
    parseDecQ "00.0000018" = some (9 / 5000000 : Rat) ∧
    microOfSeconds (9 / 5000000 : Rat) = 1 ∧
    specMicro (9 / 5000000 : Rat) = 2 ∧
    (cpuTimeOfToken "0:00.0000018").map PyTime.microsecond = .ok 1 ∧
    ¬(microOfSeconds (9 / 5000000 : Rat) = specMicro (9 / 5000000 : Rat)) := by
  decide

/-- C4 amended: the sub-second part is computed as
int((seconds mod 1) * 1_000_000), i.e. truncation, which agrees with the
spec's rounding formula exactly when (seconds mod 1) * 1_000_000 is an
integer; the token "1:02.50" still parses to the elapsed-seconds value
62.5. -/
theorem c4_micro_trunc :
    (∀ q : Rat, microOfSeconds q = pyTrunc (pyModOne q * 1000000)) ∧
    (∀ q : Rat, (pyModOne q * 1000000).den = 1 →
      microOfSeconds q = specMicro q) ∧
    (cpuTimeOfToken "1:02.50").map elapsedOfTime = .ok (125 / 2 : Rat) := by
  refine ⟨fun q => rfl, fun q hden => ?_, by decide⟩
  unfold microOfSeconds specMicro
  have hx0 : (0 : Rat) ≤ pyModOne q * 1000000 := by
    rw [pyModOne_eq_fract]
    exact mul_nonneg (Int.fract_nonneg q) (by norm_num)
  rw [show pyTrunc (pyModOne q * 1000000) = ⌊pyModOne q * 1000000⌋ from if_pos hx0]
  have hy := (Rat.den_eq_one_iff _).mp hden
  rw [← hy, Int.floor_intCast, round_intCast]

theorem c4_micro_trunc_witness :
    microOfSeconds (1 / 2 : Rat) = specMicro (1 / 2 : Rat) :=
  c4_micro_trunc.2.1 (1 / 2) (by decide)

/-- C5 counterexample: the valid line with cpuTime token "0:00.0000018"
parses, but the stored time reads back as 1/1000000 seconds while the token
denotes 9/5000000 seconds: the cpuTime value does not round-trip without
loss of precision for every valid line. -/
theorem c5_roundtrip_cex :
    (fromTokens ["100", "alice", "20", "0", "1000", "500", "100", "R",
      "12.3", "1.0", "0:00.0000018", "bash"]).map (fun p => elapsedOfTime p.time) =
      .ok (1 / 1000000 : Rat) ∧
    timeTokenValue "0:00.0000018" = some (9 / 5000000 : Rat) ∧
    ¬((1 / 1000000 : Rat) = 9 / 5000000) := by
  decide

/-- C5 amended: on every successfully parsed line the six integer fields and
the two decimal percentage fields are stored as the exact numeric values of
their tokens (Python int and decimal.Decimal are exact).  The cpuTime value
is excluded: it does not round-trip for every valid line (see the
counterexample), and under CPython double arithmetic even a whole-microsecond
fraction can be stored one microsecond low, so no exactness condition is
asserted for it. -/
theorem c5_roundtrip :
    ∀ (pid user pr ni virt res shr s cpu mem time command : String) (p : Process),
      Process.from_line pid user pr ni virt res shr s cpu mem time command = .ok p →
      (parseInt pid = some p.pid ∧ parseInt pr = some p.pr ∧
        parseInt ni = some p.ni ∧ parseInt virt = some p.virt ∧
        parseInt res = some p.res ∧ parseInt shr = some p.shr) ∧
      (parsePercentToken cpu = some p.cpu ∧ parsePercentToken mem = some p.mem) := by
  intro pid user pr ni virt res shr s cpu mem time command p h
  obtain ⟨h1, _hu, h2, h3, h4, h5, h6, _hs, h7, h8, _ht, _hc⟩ :=
    from_line_ok_inv pid user pr ni virt res shr s cpu mem time command p h
  exact ⟨⟨h1, h2, h3, h4, h5, h6⟩, h7, h8⟩

theorem c5_roundtrip_witness :
    parseInt "3301" = some 3301 ∧
    parsePercentToken "2,5" = some (5 / 2 : Rat) := by
  have h := c5_roundtrip "3301" "user" "20" "0" "10" "5" "1" "R" "1.5" "2,5"
    "1:02.50" "cmd" c5proc (by decide)
  exact ⟨h.1.1, h.2.2⟩

/-- C6 counterexample: after observing a single record for pid 100 the nine
sequences of that Series all have length 2, not 1: the count of Records fed
for that pid is 1, but the first record is stored twice (creation seed plus
unconditional append). -/
theorem c6_count_cex :
    (processRecords DB.empty [r0]).map
      (fun db => (db.get 100).map (fun t => t.s_list.length)) = .ok (some 2) ∧
    recordCount [r0] 100 = 1 ∧
    ¬((2 : Nat) = 1) := by
  decide

/-- C6 amended: after any sequence of records fed to a fresh store, every
stored Series has its nine metric sequences of equal length, and that common
length is the count of records fed for that pid PLUS ONE (the creation seed
duplicates the first record). -/
theorem c6_lengths :
    ∀ (ps : List Process) (db : DB), processRecords DB.empty ps = .ok db →
      ∀ pid t, db.get pid = some t →
        (t.ni_list.length = t.pr_list.length ∧
          t.virt_list.length = t.pr_list.length ∧
          t.res_list.length = t.pr_list.length ∧
          t.shr_list.length = t.pr_list.length ∧
          t.s_list.length = t.pr_list.length ∧
          t.cpu_list.length = t.pr_list.length ∧
          t.mem_list.length = t.pr_list.length ∧
          t.time_list.length = t.pr_list.length) ∧
        t.pr_list.length = recordCount ps pid + 1 := by
  intro ps db h pid t ht
  have hinv0 : storeInv DB.empty (fun _ => 0) := by
    constructor
    · intro pid' t' ht'
      exact Option.noConfusion ht'
    · intro pid' _
      rfl
  obtain ⟨db2, hok, hinv⟩ := processRecords_inv ps DB.empty _ hinv0
  rw [h] at hok
  injection hok with hdb
  subst hdb
  obtain ⟨e1, e2, e3, e4, e5, e6, e7, e8, e9⟩ := hinv.1 pid t ht
  simp only [Nat.zero_add] at e1 e2 e3 e4 e5 e6 e7 e8 e9
  refine ⟨⟨?_, ?_, ?_, ?_, ?_, ?_, ?_, ?_⟩, ?_⟩ <;> omega

theorem c6_lengths_witness :
    r0top.s_list.length = r0top.pr_list.length ∧
    r0top.pr_list.length = recordCount [r0] 100 + 1 := by
  have h := c6_lengths [r0] r0db rfl 100 r0top rfl
  exact ⟨h.1.2.2.2.2.1, h.2⟩

/-- C7: the percentage parser replaces the comma decimal separator with a
period and then parses an exact decimal: both "12,3" and "12.3" yield the
exact rational 12.3, and that exact value lands in the record's cpu field. -/
theorem c7_percent :
    (∀ tok : String, parsePercentToken tok = parseDecQ (commaToPeriod tok)) ∧
    commaToPeriod "12,3" = "12.3" ∧
    parsePercentToken "12,3" = some (123 / 10 : Rat) ∧
    parsePercentToken "12.3" = some (123 / 10 : Rat) ∧
    (fromTokens ["100", "alice", "20", "0", "1000", "500", "100", "R",
      "12,3", "1.0", "0:01.00", "bash"]).map Process.cpu = .ok (123 / 10 : Rat) :=
  ⟨fun _ => rfl, by decide, by decide, by decide, by decide⟩

/-- C8: a status token parses exactly when it is one of the seven enum codes
D, I, R, S, T, t, Z; "Q" fails; and a record is produced only when its status
token was looked up successfully in the enum. -/
theorem c8_status :
    (∀ tok : String, (statusOfName tok).isSome = true ↔
      (tok = "D" ∨ tok = "I" ∨ tok = "R" ∨ tok = "S" ∨ tok = "T" ∨
        tok = "t" ∨ tok = "Z")) ∧
    statusOfName "Q" = none ∧
    (∀ (pid user pr ni virt res shr s cpu mem time command : String) (p : Process),
      Process.from_line pid user pr ni virt res shr s cpu mem time command = .ok p →
      statusOfName s = some p.s) := by
  refine ⟨?_, by decide, ?_⟩
  · intro tok
    unfold statusOfName
    split_ifs <;> simp_all
  · intro pid user pr ni virt res shr s cpu mem time command p h
    exact (from_line_ok_inv pid user pr ni virt res shr s cpu mem time command p h).2.2.2.2.2.2.2.1

theorem c8_status_witness : statusOfName "R" = some ProcessStatus.R := by
  have h := c8_status.2.2 "100" "alice" "20" "0" "1000" "500" "100" "R"
    "12.3" "1.0" "0:01.00" "bash" r0 (by decide)
  exact h

/-- C9: the identity fields pid, user and command of every Series equal those
of the first record fed for that pid, whatever later records carry. -/
theorem c9_identity :
    ∀ (ps : List Process) (db : DB), processRecords DB.empty ps = .ok db →
      ∀ pid t, db.get pid = some t →
        ∃ p, firstRecord ps pid = some p ∧
          t.pid = p.pid ∧ t.user = p.user ∧ t.command = p.command := by
  intro ps db h pid t ht
  rcases processRecords_ident ps DB.empty db h pid t ht with
    ⟨t', hempty, _⟩ | ⟨_, p, hfind, h1, h2, h3⟩
  · exact Option.noConfusion hempty
  · exact ⟨p, hfind, h1, h2, h3⟩

theorem c9_identity_witness :
    c9top.user = r0.user ∧ r0.user ≠ r1.user := by
  have h := c9_identity [r0, r1] c9db rfl 100 c9top rfl
  obtain ⟨p, hp, _hp1, hp2, _hp3⟩ := h
  have hr : firstRecord [r0, r1] 100 = some r0 := rfl
  rw [hr] at hp
  injection hp with hp
  constructor
  · rw [hp2, ← hp]
  · decide

/-- C10: the stored command is the raw command token with every occurrence of
"python3" replaced by "pd_client"; consequently no record's command contains
"python3", and a command free of that substring is stored unchanged. -/
theorem c10_command :
    ∀ (pid user pr ni virt res shr s cpu mem time command : String) (p : Process),
      Process.from_line pid user pr ni virt res shr s cpu mem time command = .ok p →
      p.command = pyReplaceCmd command ∧
      (¬∃ x y, p.command.data = x ++ patL ++ y) ∧
      ((¬∃ x y, command.data = x ++ patL ++ y) → p.command = command) := by
  intro pid user pr ni virt res shr s cpu mem time command p h
  have hcmd :=
    (from_line_ok_inv pid user pr ni virt res shr s cpu mem time command p h).2.2.2.2.2.2.2.2.2.2.2
  refine ⟨hcmd, ?_, ?_⟩
  · rintro ⟨x, y, hxy⟩
    have hb : containsSub patL (pyReplaceCmd command).data = false :=
      pyReplaceCmd_no_python3 command
    rw [hcmd] at hxy
    have ht : containsSub patL (pyReplaceCmd command).data = true :=
      (containsSub_iff patL _).mpr ⟨x, y, hxy⟩
    rw [ht] at hb
    exact Bool.noConfusion hb
  · intro hno
    have hf : containsSub patL command.data = false := by
      cases hcs : containsSub patL command.data with
      | false => rfl
      | true => exact absurd ((containsSub_iff patL _).mp hcs) hno
    rw [hcmd]
    exact pyReplaceCmd_id command hf

theorem c10_command_witness :
    pyProc.command = pyReplaceCmd "python3" ∧
    ¬∃ x y, pyProc.command.data = x ++ patL ++ y := by
  have h := c10_command "100" "alice" "20" "0" "1000" "500" "100" "R"
    "12.3" "1.0" "0:01.00" "python3" pyProc (by decide)
  exact ⟨h.1, h.2.1⟩

end TopPy
